import Mathlib

set_option maxHeartbeats 1000000

/-!
Shallow embedding of `0x00-personal_data/filtered_logger.py`.

The heart of the module is

    pattern = r'({})=([^{}]*)'.format('|'.join(fields), separator)
    return re.sub(pattern, lambda m: f"{m.group(1)}={redaction}", message)

For literal field names this regex means: at each position of the message,
scanning left to right, try the alternatives (the field names, in list
order) one after the other; an alternative `f` matches if the text starts
with `f` followed by a literal `=`; the value group `[^sep]*` then greedily
takes the longest run of characters different from the separator.  The
whole match `f=value` is replaced by `f=redaction` and scanning resumes
after the match.  `'|'.join([])` is the empty string, so an empty field
list yields the pattern `()=([^sep]*)` whose first group is the empty
alternative: every `=`-run of the message is then rewritten.

We embed messages as `List Char` (wrapped into `String` at the API
boundary), the separator as a single character (the data model fixes it to
a one-character string, `";"` in the formatter), and the scanner as a
fuel-indexed structural recursion (`reSubAux`) so that all definitions
compute by kernel reduction.  The embedding is faithful for field names
made of ordinary literal characters; a field name containing `'|'` splits
into several alternatives exactly as in the regex (`splitBar ∘ joinFields`
below), while other regex metacharacters are outside the model (the spec
itself flags unescaped metacharacters as a latent gap).
-/

namespace FilteredLogger

/-- PII_FIELDS tuple from the source. -/
def PII_FIELDS : List String := ["name", "email", "phone", "ssn", "password"]

/-- One regex alternative: the literal `f` followed by the literal `=`
matches at the start of `s`. -/
def probeAlt (f : List Char) (s : List Char) : Bool :=
  (f ++ ['=']).isPrefixOf s

/-- First alternative (in list order) whose `key=` matches at the start of
`s`; this mirrors the leftmost-alternative preference of the regex
alternation `(f1|f2|...)`. -/
def findAlt (alts : List (List Char)) (s : List Char) : Option (List Char) :=
  alts.find? fun f => probeAlt f s

/-- Fuel-indexed scanner for `re.sub(pattern, lambda m: group(1)+"="+red, ·)`.
At each position: if some alternative `f` matches `f=` here, emit
`f=red`, skip the greedy value run `[^sep]*`, and resume after it;
otherwise emit the current character and move one position right.
The fuel only makes the recursion structural; it is never exhausted when
it starts at the length of the message (each step consumes at least one
character). -/
def reSubAux (alts : List (List Char)) (sep : Char) (red : List Char) :
    Nat → List Char → List Char
  | _, [] => []
  | 0, _ :: _ => []
  | n + 1, c :: cs =>
    match findAlt alts (c :: cs) with
    | some f =>
      f ++ '=' :: (red ++ reSubAux alts sep red n
        ((cs.drop f.length).dropWhile fun x => x ≠ sep))
    | none => c :: reSubAux alts sep red n cs

/-- `re.sub` of the source's pattern over a character list. -/
def reSub (alts : List (List Char)) (sep : Char) (red : List Char)
    (s : List Char) : List Char :=
  reSubAux alts sep red s.length s

/-- Character-level `'|'.join(fields)`. -/
def joinFields : List String → List Char
  | [] => []
  | [f] => f.data
  | f :: fs => f.data ++ '|' :: joinFields fs

/-- Split a character list at every `'|'`; applied to `joinFields fields`
this recovers the alternatives of the regex alternation exactly as the
regex engine sees them (in particular `splitBar (joinFields []) = [[]]`,
the single empty alternative of the degenerate pattern `()=...`). -/
def splitBar : List Char → List (List Char)
  | [] => [[]]
  | c :: cs =>
    if c = '|' then [] :: splitBar cs
    else
      match splitBar cs with
      | [] => [[]]
      | g :: gs => (c :: g) :: gs

/-- The alternatives of the regex built from a field list. -/
def altsOf (fields : List String) : List (List Char) :=
  splitBar (joinFields fields)

/-- `filter_datum` from the source.  The separator is modelled as the
single character of the (length-one) separator string. -/
def filter_datum (fields : List String) (redaction : String)
    (message : String) (separator : Char) : String :=
  ⟨reSub (altsOf fields) separator redaction.data message.data⟩

/-- REDACTION constant of `RedactingFormatter`. -/
def REDACTION : String := "***"

/-- SEPARATOR constant of `RedactingFormatter` (the one-character string
`";"`, modelled as the character). -/
def SEPARATOR : Char := ';'

/-- The fields of a `logging.LogRecord` that the format template
`"[HOLBERTON] %(name)s %(levelname)s %(asctime)-15s: %(message)s"` reads. -/
structure LogRecord where
  name : String
  levelname : String
  asctime : String
  message : String

/-- `%-15s`: left-justify, pad with spaces to a minimum width of 15. -/
def padTo15 (s : String) : String :=
  s ++ ⟨List.replicate (15 - s.length) ' '⟩

/-- The part of the rendered base template before the record's message. -/
def renderHead (r : LogRecord) : String :=
  "[HOLBERTON] " ++ r.name ++ " " ++ r.levelname ++ " " ++ padTo15 r.asctime ++ ": "

/-- Rendering of the base template `FORMAT` by `logging.Formatter.format`. -/
def render (r : LogRecord) : String :=
  renderHead r ++ r.message

/-- `RedactingFormatter.format`: render the base template, then apply
`filter_datum` to the whole rendered line with the configured fields,
REDACTION and SEPARATOR. -/
def RedactingFormatter.format (fields : List String) (r : LogRecord) : String :=
  filter_datum fields REDACTION (render r) SEPARATOR

/-- The raw message `main` builds for one row:
`"; ".join(f"{fields[i]}={row[i]}" for i in range(len(fields)))`.
Column names and values are paired positionally (the database yields rows
of the same width as the column list). -/
def buildMessage (cols row : List String) : String :=
  String.intercalate "; " (List.zipWith (fun c v => c ++ "=" ++ v) cols row)

/-- Abstract error that the database layer can raise while `main` iterates
the cursor (e.g. a dropped connection mid-iteration). -/
inductive DbError where
  | connectionLost

/-- Outcome of a run of `main`: the messages actually handed to the logger
before the run ended, the error that aborted it (if any), and whether the
cursor and the connection were closed when control left `main`. -/
structure MainOutcome where
  logged : List String
  failure : Option DbError
  cursorClosed : Bool
  dbClosed : Bool

/-- The `for row in cursor` loop of `main`: rows are consumed in order,
each successful row contributes one built message, and the first error
aborts the loop (the messages logged before it stay logged). -/
def emitRows (cols : List String) :
    List (Except DbError (List String)) → List String × Option DbError
  | [] => ([], none)
  | Except.error e :: _ => ([], some e)
  | Except.ok row :: rest =>
    let p := emitRows cols rest
    (buildMessage cols row :: p.1, p.2)

/-- Control flow of `main` after the connection and cursor are acquired:
`cursor.close()` and `db.close()` are the last two statements of the
function body, with no `try`/`finally` or `with` around the loop, so they
execute only when the loop finishes normally; an exception raised while
iterating propagates past both calls, leaving cursor and connection open. -/
def main (cols : List String) (rows : List (Except DbError (List String))) :
    MainOutcome :=
  match emitRows cols rows with
  | (ls, none) => ⟨ls, none, true, true⟩
  | (ls, some e) => ⟨ls, some e, false, false⟩

/-! ### Observer: the key sequence of a message

`keys sep m` is the list of keys of `m`: split `m` at every separator and
take each token's text up to its first `'='`.  This formalises the spec's
"sequence of keys appearing in the message" and is used only to state
claims about token preservation. -/

/-- Keys of a message: one entry per separator-delimited token, each the
token's text before its first `'='`. -/
def keys (sep : Char) : List Char → List (List Char)
  | [] => [[]]
  | c :: t =>
    if c = sep then [] :: keys sep t
    else
      match keys sep t with
      | [] => [[]]
      | k :: ks => (if c = '=' then [] else c :: k) :: ks

/-! ### Basic facts about the scanner -/

theorem reSubAux_nil (alts : List (List Char)) (sep : Char) (red : List Char)
    (n : Nat) : reSubAux alts sep red n [] = [] := by
  cases n <;> rfl

theorem length_dropWhile_le (p : Char → Bool) (l : List Char) :
    (l.dropWhile p).length ≤ l.length := by
  induction l with
  | nil => simp [List.dropWhile]
  | cons a t ih =>
    rw [List.dropWhile_cons]
    by_cases h : p a = true
    · simp only [h, if_true]
      exact Nat.le_trans ih (by simp)
    · simp [h]

theorem reSubAux_fuel (alts : List (List Char)) (sep : Char) (red : List Char) :
    ∀ n m s, s.length ≤ n → s.length ≤ m →
      reSubAux alts sep red n s = reSubAux alts sep red m s := by
  intro n
  induction n with
  | zero =>
    intro m s hn _
    have hs : s = [] := List.eq_nil_of_length_eq_zero (Nat.le_zero.mp hn)
    subst hs
    simp [reSubAux_nil]
  | succ n ih =>
    intro m s hn hm
    match s, m with
    | [], _ => simp [reSubAux_nil]
    | c :: cs, 0 => simp at hm
    | c :: cs, m + 1 =>
      have hn' : cs.length ≤ n := by
        simp only [List.length_cons] at hn; omega
      have hm' : cs.length ≤ m := by
        simp only [List.length_cons] at hm; omega
      cases h : findAlt alts (c :: cs) with
      | none =>
        simp only [reSubAux, h]
        rw [ih m cs hn' hm']
      | some f =>
        simp only [reSubAux, h]
        have hr : ((cs.drop f.length).dropWhile fun x => x ≠ sep).length ≤ cs.length := by
          refine Nat.le_trans (length_dropWhile_le _ _) ?_
          simp
        rw [ih m _ (Nat.le_trans hr hn') (Nat.le_trans hr hm')]

theorem reSub_nil (alts : List (List Char)) (sep : Char) (red : List Char) :
    reSub alts sep red [] = [] := rfl

theorem reSub_cons_none (alts : List (List Char)) (sep : Char) (red : List Char)
    {c : Char} {cs : List Char} (h : findAlt alts (c :: cs) = none) :
    reSub alts sep red (c :: cs) = c :: reSub alts sep red cs := by
  unfold reSub
  rw [List.length_cons]
  simp only [reSubAux, h]

theorem reSub_cons_some (alts : List (List Char)) (sep : Char) (red : List Char)
    {c : Char} {cs f : List Char} (h : findAlt alts (c :: cs) = some f) :
    reSub alts sep red (c :: cs) =
      f ++ '=' :: (red ++ reSub alts sep red
        ((cs.drop f.length).dropWhile fun x => x ≠ sep)) := by
  unfold reSub
  rw [List.length_cons]
  simp only [reSubAux, h]
  rw [reSubAux_fuel alts sep red cs.length
    ((cs.drop f.length).dropWhile fun x => x ≠ sep).length _
    (Nat.le_trans (length_dropWhile_le _ _) (by simp)) (Nat.le_refl _)]

theorem probeAlt_nil (f : List Char) : probeAlt f [] = false := by
  cases f <;> rfl

theorem findAlt_nil (alts : List (List Char)) : findAlt alts [] = none := by
  unfold findAlt
  rw [List.find?_eq_none]
  intro f _
  simp [probeAlt_nil]

theorem findAlt_mem {alts : List (List Char)} {s f : List Char}
    (h : findAlt alts s = some f) : f ∈ alts :=
  List.mem_of_find?_eq_some h

theorem findAlt_isPre {alts : List (List Char)} {s f : List Char}
    (h : findAlt alts s = some f) : (f ++ ['=']) <+: s := by
  have hp := List.find?_some h
  simpa [probeAlt] using hp

theorem drop_key (f t : List Char) :
    (f ++ '=' :: t).drop (f.length + 1) = t := by
  have he : f ++ '=' :: t = (f ++ ['=']) ++ t := by simp
  rw [he, List.drop_left' (by simp)]

theorem reSub_eq_of_findAlt_some (alts : List (List Char)) (sep : Char)
    (red : List Char) {s f : List Char} (h : findAlt alts s = some f) :
    reSub alts sep red s =
      f ++ '=' :: (red ++ reSub alts sep red
        ((s.drop (f.length + 1)).dropWhile fun x => x ≠ sep)) := by
  match s with
  | [] => rw [findAlt_nil] at h; exact absurd h (by simp)
  | c :: cs =>
    rw [reSub_cons_some alts sep red h]
    rfl

theorem dropWhile_cons_sep (sep : Char) (t : List Char) :
    (sep :: t).dropWhile (fun x => x ≠ sep) = sep :: t := by
  rw [List.dropWhile_cons]
  simp

theorem dropWhile_all {p : Char → Bool} {v : List Char}
    (hv : ∀ c ∈ v, p c = true) (l : List Char) :
    (v ++ l).dropWhile p = l.dropWhile p := by
  induction v with
  | nil => rfl
  | cons a t ih =>
    rw [List.cons_append, List.dropWhile_cons, if_pos (hv a (by simp))]
    exact ih fun c hc => hv c (by simp [hc])

/-! ### Probing an already rewritten key position -/

theorem probeAlt_nil_cons (c : Char) (X : List Char) :
    probeAlt [] (c :: X) = ('=' == c) := by
  simp [probeAlt, List.isPrefixOf]

theorem probeAlt_cons_cons (a : Char) (g' : List Char) (c : Char) (X : List Char) :
    probeAlt (a :: g') (c :: X) = ((a == c) && probeAlt g' X) := by
  simp [probeAlt, List.isPrefixOf, List.cons_append]

/-- For `'='`-free `g` and `f`, whether `g=` matches at the start of
`f ++ '=' :: X` does not depend on `X` at all: it holds exactly when
`g = f`.  This is the reason a second scan sees the same matches as the
first one. -/
theorem probeAlt_key_const {g f : List Char} (hg : '=' ∉ g) (hf : '=' ∉ f)
    (X : List Char) : probeAlt g (f ++ '=' :: X) = (g == f) := by
  induction g generalizing f with
  | nil =>
    cases f with
    | nil => simp [probeAlt_nil_cons]
    | cons d f' =>
      rw [List.cons_append, probeAlt_nil_cons]
      have hd : d ≠ '=' := fun e => hf (List.mem_cons.mpr (Or.inl e.symm))
      simp [Ne.symm hd]
  | cons a g' ih =>
    have ha : a ≠ '=' := fun e => hg (List.mem_cons.mpr (Or.inl e.symm))
    cases f with
    | nil =>
      simp only [List.nil_append]
      rw [probeAlt_cons_cons]
      simp [ha]
    | cons d f' =>
      rw [List.cons_append, probeAlt_cons_cons,
        ih (fun e => hg (List.mem_cons_of_mem _ e))
          (fun e => hf (List.mem_cons_of_mem _ e))]
      simp [List.cons_beq_cons]

/-- When all alternatives are `'='`-free and `f` is one of them, the
scanner positioned at `f ++ '=' :: X` selects exactly `f`, whatever `X`
is. -/
theorem findAlt_of_key {f : List Char} (X : List Char) :
    ∀ alts : List (List Char), (∀ a ∈ alts, '=' ∉ a) → f ∈ alts →
      findAlt alts (f ++ '=' :: X) = some f := by
  intro alts
  induction alts with
  | nil => intro _ hf; simp at hf
  | cons a as ih =>
    intro hAll hf
    have hfe : '=' ∉ f := hAll f hf
    unfold findAlt
    rw [List.find?_cons, probeAlt_key_const (hAll a (by simp)) hfe X]
    by_cases hae : a = f
    · simp [hae]
    · have hbeq : (a == f) = false := by simp [hae]
      rw [hbeq]
      have hf' : f ∈ as := by
        rcases List.mem_cons.mp hf with h | h
        · exact absurd h.symm hae
        · exact h
      exact ih (fun b hb => hAll b (List.mem_cons_of_mem _ hb)) hf'

/-- No alternative matches at a position that starts with the separator
(alternatives are separator-free and the separator is not `'='`). -/
theorem findAlt_sep_head {alts : List (List Char)} {sep : Char}
    (hAll : ∀ a ∈ alts, sep ∉ a) (hsep : sep ≠ '=') (t : List Char) :
    findAlt alts (sep :: t) = none := by
  unfold findAlt
  rw [List.find?_eq_none]
  intro a ha
  cases a with
  | nil =>
    rw [probeAlt_nil_cons]
    simp
    exact Ne.symm hsep
  | cons b a' =>
    rw [probeAlt_cons_cons]
    have hb : b ≠ sep := fun e =>
      hAll (b :: a') ha (List.mem_cons.mpr (Or.inl e.symm))
    simp [hb]

theorem dropWhile_ne_sep_shape (sep : Char) (l : List Char) :
    (l.dropWhile fun x => x ≠ sep) = [] ∨
      ∃ t, (l.dropWhile fun x => x ≠ sep) = sep :: t := by
  induction l with
  | nil => left; rfl
  | cons a l' ih =>
    rw [List.dropWhile_cons]
    by_cases h : a = sep
    · right
      rw [if_neg (by simp [h])]
      exact ⟨l', by rw [h]⟩
    · rw [if_pos (by simp [h])]
      exact ih

theorem decomp_of_findAlt {alts : List (List Char)} {s f : List Char}
    (h : findAlt alts s = some f) :
    s = f ++ '=' :: s.drop (f.length + 1) := by
  rcases findAlt_isPre h with ⟨t, rfl⟩
  have e : (f ++ ['=']) ++ t = f ++ '=' :: t := by simp
  rw [e, drop_key]

/-! ### Character inventory of the alternation `splitBar (joinFields fields)` -/

theorem splitBar_ne_nil : ∀ l : List Char, splitBar l ≠ [] := by
  intro l
  cases l with
  | nil => simp [splitBar]
  | cons c cs =>
    simp only [splitBar]
    by_cases h : c = '|'
    · simp [h]
    · rw [if_neg h]
      cases hs : splitBar cs with
      | nil => simp
      | cons g gs => simp

theorem splitBar_chars : ∀ l a : List Char, a ∈ splitBar l → ∀ c ∈ a, c ∈ l := by
  intro l
  induction l with
  | nil =>
    intro a ha c hc
    simp only [splitBar, List.mem_singleton] at ha
    subst ha
    simp at hc
  | cons d l' ih =>
    intro a ha c hc
    simp only [splitBar] at ha
    by_cases h : d = '|'
    · rw [if_pos h] at ha
      rcases List.mem_cons.mp ha with h1 | h2
      · subst h1; simp at hc
      · exact List.mem_cons_of_mem _ (ih a h2 c hc)
    · rw [if_neg h] at ha
      cases hs : splitBar l' with
      | nil => exact absurd hs (splitBar_ne_nil l')
      | cons g gs =>
        rw [hs] at ha
        rcases List.mem_cons.mp ha with h1 | h2
        · subst h1
          rcases List.mem_cons.mp hc with h3 | h4
          · subst h3; exact List.mem_cons_self _ _
          · exact List.mem_cons_of_mem _
              (ih g (by rw [hs]; exact List.mem_cons_self g gs) c h4)
        · exact List.mem_cons_of_mem _
            (ih a (by rw [hs]; exact List.mem_cons_of_mem _ h2) c hc)

theorem splitBar_no_bar : ∀ l a : List Char, a ∈ splitBar l → '|' ∉ a := by
  intro l
  induction l with
  | nil =>
    intro a ha
    simp only [splitBar, List.mem_singleton] at ha
    subst ha
    simp
  | cons d l' ih =>
    intro a ha
    simp only [splitBar] at ha
    by_cases h : d = '|'
    · rw [if_pos h] at ha
      rcases List.mem_cons.mp ha with h1 | h2
      · subst h1; simp
      · exact ih a h2
    · rw [if_neg h] at ha
      cases hs : splitBar l' with
      | nil => exact absurd hs (splitBar_ne_nil l')
      | cons g gs =>
        rw [hs] at ha
        rcases List.mem_cons.mp ha with h1 | h2
        · subst h1
          intro hb
          rcases List.mem_cons.mp hb with h3 | h4
          · exact h h3.symm
          · exact ih g (by rw [hs]; exact List.mem_cons_self g gs) h4
        · exact ih a (by rw [hs]; exact List.mem_cons_of_mem _ h2)

theorem joinFields_chars : ∀ (fs : List String) (c : Char),
    c ∈ joinFields fs → c = '|' ∨ ∃ f ∈ fs, c ∈ f.data := by
  intro fs
  induction fs with
  | nil => intro c hc; simp [joinFields] at hc
  | cons f fs' ih =>
    intro c hc
    cases fs' with
    | nil =>
      right
      exact ⟨f, by simp, by simpa [joinFields] using hc⟩
    | cons g gs =>
      simp only [joinFields] at hc
      rcases List.mem_append.mp hc with h1 | h2
      · right; exact ⟨f, by simp, h1⟩
      · rcases List.mem_cons.mp h2 with h3 | h4
        · left; exact h3
        · rcases ih c h4 with h5 | ⟨f', hf', hc'⟩
          · left; exact h5
          · right; exact ⟨f', List.mem_cons_of_mem _ hf', hc'⟩

/-- Every alternative of the regex built from a field list inherits the
fields' freedom from `'='` and from the separator (and never contains the
bar it was split at). -/
theorem alts_clean (fields : List String) (sep : Char)
    (h1 : ∀ f ∈ fields, '=' ∉ f.data ∧ sep ∉ f.data) :
    ∀ a ∈ altsOf fields, '=' ∉ a ∧ sep ∉ a := by
  intro a ha
  constructor
  · intro he
    rcases joinFields_chars fields '='
        (splitBar_chars (joinFields fields) a ha '=' he) with h | ⟨f, hf, hc⟩
    · exact absurd h (by decide)
    · exact (h1 f hf).1 hc
  · intro hs
    by_cases hb : sep = '|'
    · exact splitBar_no_bar (joinFields fields) a ha (hb ▸ hs)
    · rcases joinFields_chars fields sep
          (splitBar_chars (joinFields fields) a ha sep hs) with h | ⟨f, hf, hc⟩
      · exact hb h
      · exact (h1 f hf).2 hc

/-! ### Key sequences under the scanner -/

theorem keys_ne_nil (sep : Char) : ∀ t : List Char, keys sep t ≠ [] := by
  intro t
  cases t with
  | nil => simp [keys]
  | cons c t' =>
    simp only [keys]
    by_cases h : c = sep
    · simp [h]
    · rw [if_neg h]
      cases hk : keys sep t' with
      | nil => simp
      | cons k ks => simp

theorem keys_cons_sep (sep : Char) (t : List Char) :
    keys sep (sep :: t) = [] :: keys sep t := by
  simp [keys]

theorem keys_cons_ne {sep c : Char} (hc : c ≠ sep) {t k : List Char}
    {ks : List (List Char)} (hk : keys sep t = k :: ks) :
    keys sep (c :: t) = (if c = '=' then [] else c :: k) :: ks := by
  simp only [keys, if_neg hc, hk]

/-- Separator-free text prepended to a message only reshapes the first
key; the keys of the later tokens are untouched. -/
theorem keys_tail_append {sep : Char} :
    ∀ a t : List Char, (∀ c ∈ a, c ≠ sep) →
      (keys sep (a ++ t)).tail = (keys sep t).tail := by
  intro a
  induction a with
  | nil => intro t _; rfl
  | cons c a' ih =>
    intro t ha
    have hc : c ≠ sep := ha c (List.mem_cons_self _ _)
    cases hk : keys sep (a' ++ t) with
    | nil => exact absurd hk (keys_ne_nil sep _)
    | cons k ks =>
      rw [List.cons_append, keys_cons_ne hc hk]
      have ht := ih t fun d hd => ha d (List.mem_cons_of_mem _ hd)
      rw [hk] at ht
      simpa using ht

/-- A `'='`-free, separator-free key followed by `'='` becomes the first
key of the message, and the rest of the key sequence is that of the text
after the `'='` minus its own first key. -/
theorem keys_key_cons {sep : Char} (hsep : sep ≠ '=') :
    ∀ f t : List Char, '=' ∉ f → (∀ c ∈ f, c ≠ sep) →
      ∀ {k : List Char} {ks : List (List Char)}, keys sep t = k :: ks →
      keys sep (f ++ '=' :: t) = f :: ks := by
  intro f
  induction f with
  | nil =>
    intro t _ _ k ks hk
    rw [List.nil_append, keys_cons_ne (Ne.symm hsep) hk]
    simp
  | cons a f' ih =>
    intro t hf hfsep k ks hk
    have ha : a ≠ '=' := fun e => hf (List.mem_cons.mpr (Or.inl e.symm))
    have haseq : a ≠ sep := hfsep a (List.mem_cons_self _ _)
    have ih' : keys sep (f' ++ '=' :: t) = f' :: ks :=
      ih t (fun e => hf (List.mem_cons_of_mem _ e))
        (fun d hd => hfsep d (List.mem_cons_of_mem _ hd)) hk
    rw [List.cons_append, keys_cons_ne haseq ih']
    simp [ha]

/-- Core of C6: when every alternative is free of `'='` and of the
separator, and the mask is separator-free, a scan preserves the key
sequence of any message. -/
theorem keys_reSub (alts : List (List Char)) (sep : Char) (red : List Char)
    (hAll : ∀ a ∈ alts, '=' ∉ a ∧ sep ∉ a) (hred : sep ∉ red)
    (hsep : sep ≠ '=') :
    ∀ (n : Nat) (s : List Char), s.length ≤ n →
      keys sep (reSub alts sep red s) = keys sep s := by
  intro n
  induction n with
  | zero =>
    intro s hs
    have hnil : s = [] := List.eq_nil_of_length_eq_zero (Nat.le_zero.mp hs)
    subst hnil
    rfl
  | succ n ih =>
    intro s hs
    match s with
    | [] => rfl
    | c :: cs =>
      have hcs : cs.length ≤ n := by
        simp only [List.length_cons] at hs; omega
      cases h : findAlt alts (c :: cs) with
      | none =>
        rw [reSub_cons_none _ _ _ h]
        by_cases hc : c = sep
        · subst hc
          rw [keys_cons_sep, keys_cons_sep, ih cs hcs]
        · cases hk : keys sep cs with
          | nil => exact absurd hk (keys_ne_nil sep cs)
          | cons k ks =>
            have hk2 : keys sep (reSub alts sep red cs) = k :: ks := by
              rw [ih cs hcs, hk]
            rw [keys_cons_ne hc hk2, keys_cons_ne hc hk]
      | some f =>
        have hmem := findAlt_mem h
        have hfe : '=' ∉ f := (hAll f hmem).1
        have hfsep : ∀ d ∈ f, d ≠ sep := fun d hd e => (hAll f hmem).2 (e ▸ hd)
        have hdec : c :: cs = f ++ '=' :: cs.drop f.length := by
          have hd := decomp_of_findAlt h
          simpa using hd
        rw [reSub_cons_some _ _ _ h]
        set R := (cs.drop f.length).dropWhile (fun x => x ≠ sep) with hR
        have hVR : (cs.drop f.length).takeWhile (fun x => x ≠ sep) ++ R =
            cs.drop f.length := List.takeWhile_append_dropWhile _ _
        have hRlen : R.length ≤ n := by
          have h1 : R.length ≤ (cs.drop f.length).length := by
            rw [hR]; exact length_dropWhile_le _ _
          have h2 : (cs.drop f.length).length ≤ cs.length := by simp
          omega
        cases hkR : keys sep R with
        | nil => exact absurd hkR (keys_ne_nil sep R)
        | cons k ks =>
          have hL1 : (keys sep (red ++ reSub alts sep red R)).tail = ks := by
            have ht := keys_tail_append red (reSub alts sep red R)
              fun d hd (e : d = sep) => hred (by rw [← e]; exact hd)
            rw [ih R hRlen, hkR] at ht
            simpa using ht
          cases hkL : keys sep (red ++ reSub alts sep red R) with
          | nil => exact absurd hkL (keys_ne_nil sep _)
          | cons kL ksL =>
            have hksL : ksL = ks := by
              rw [hkL] at hL1
              simpa using hL1
            have hV : ∀ d ∈ (cs.drop f.length).takeWhile (fun x => x ≠ sep),
                d ≠ sep := by
              intro d hd
              have hp := List.mem_takeWhile_imp hd
              simpa using hp
            have hR1 : (keys sep (cs.drop f.length)).tail = ks := by
              have ht := keys_tail_append
                ((cs.drop f.length).takeWhile (fun x => x ≠ sep)) R hV
              rw [hVR, hkR] at ht
              simpa using ht
            cases hkRHS : keys sep (cs.drop f.length) with
            | nil => exact absurd hkRHS (keys_ne_nil sep _)
            | cons k2 ks2 =>
              have hks2 : ks2 = ks := by
                rw [hkRHS] at hR1
                simpa using hR1
              rw [keys_key_cons hsep f _ hfe hfsep hkL, hdec,
                keys_key_cons hsep f _ hfe hfsep hkRHS, hksL, hks2]

/-! ### Idempotence of the scanner -/

/-- Core of C4: a second scan agrees probe-by-probe with the first
(first conjunct) and therefore reproduces its output unchanged (second
conjunct), provided the alternatives are `'='`-free and separator-free,
the mask is separator-free and the separator is not `'='`. -/
theorem reSub_idem_aux (alts : List (List Char)) (sep : Char) (red : List Char)
    (hAll : ∀ a ∈ alts, '=' ∉ a ∧ sep ∉ a) (hred : sep ∉ red)
    (hsep : sep ≠ '=') :
    ∀ (n : Nat) (s : List Char), s.length ≤ n →
      (∀ g : List Char, '=' ∉ g →
        probeAlt g (reSub alts sep red s) = probeAlt g s) ∧
      reSub alts sep red (reSub alts sep red s) = reSub alts sep red s := by
  intro n
  induction n with
  | zero =>
    intro s hs
    have hnil : s = [] := List.eq_nil_of_length_eq_zero (Nat.le_zero.mp hs)
    subst hnil
    exact ⟨fun g _ => rfl, rfl⟩
  | succ n ih =>
    intro s hs
    match s with
    | [] => exact ⟨fun g _ => rfl, rfl⟩
    | c :: cs =>
      have hcs : cs.length ≤ n := by
        simp only [List.length_cons] at hs; omega
      cases h : findAlt alts (c :: cs) with
      | none =>
        rw [reSub_cons_none _ _ _ h]
        have hagree : ∀ g : List Char, '=' ∉ g →
            probeAlt g (c :: reSub alts sep red cs) = probeAlt g (c :: cs) := by
          intro g hg
          cases g with
          | nil => rw [probeAlt_nil_cons, probeAlt_nil_cons]
          | cons a g' =>
            rw [probeAlt_cons_cons, probeAlt_cons_cons,
              (ih cs hcs).1 g' fun e => hg (List.mem_cons_of_mem _ e)]
        refine ⟨hagree, ?_⟩
        have hnone : findAlt alts (c :: reSub alts sep red cs) = none := by
          unfold findAlt
          rw [List.find?_eq_none]
          intro a ha
          have hprev : ¬ probeAlt a (c :: cs) = true :=
            List.find?_eq_none.mp h a ha
          show ¬ probeAlt a (c :: reSub alts sep red cs) = true
          rw [hagree a (hAll a ha).1]
          exact hprev
        rw [reSub_cons_none _ _ _ hnone, (ih cs hcs).2]
      | some f =>
        have hmem := findAlt_mem h
        have hfe : '=' ∉ f := (hAll f hmem).1
        have hdec : c :: cs = f ++ '=' :: cs.drop f.length := by
          have hd := decomp_of_findAlt h
          simpa using hd
        rw [reSub_cons_some _ _ _ h]
        set R := (cs.drop f.length).dropWhile (fun x => x ≠ sep) with hR
        have hRlen : R.length ≤ n := by
          have h1 : R.length ≤ (cs.drop f.length).length := by
            rw [hR]; exact length_dropWhile_le _ _
          have h2 : (cs.drop f.length).length ≤ cs.length := by simp
          omega
        constructor
        · intro g hg
          rw [probeAlt_key_const hg hfe, hdec, probeAlt_key_const hg hfe]
        · have hfa2 : findAlt alts
              (f ++ '=' :: (red ++ reSub alts sep red R)) = some f :=
            findAlt_of_key _ alts (fun a ha => (hAll a ha).1) hmem
          rw [reSub_eq_of_findAlt_some _ _ _ hfa2, drop_key]
          have hredT : ∀ d ∈ red, decide (d ≠ sep) = true := by
            intro d hd
            simp
            exact fun e => hred (by rw [← e]; exact hd)
          rw [dropWhile_all hredT _]
          have hshape := dropWhile_ne_sep_shape sep (cs.drop f.length)
          rw [← hR] at hshape
          have hstable : (reSub alts sep red R).dropWhile (fun x => x ≠ sep) =
              reSub alts sep red R := by
            rcases hshape with h0 | ⟨t, ht⟩
            · rw [h0]
              rfl
            · rw [ht, reSub_cons_none _ _ _
                (findAlt_sep_head (fun a ha => (hAll a ha).2) hsep t),
                dropWhile_cons_sep]
          rw [hstable, (ih R hRlen).2]

/-! ### Claim C1 -/

/-- C1 counterexample: key matching in `filter_datum` is NOT exact on the
whole key token.  The field `"name"` matches as a substring of the key
`"username"` immediately before `=`, so `"username=Bob"` is not left
byte-for-byte identical, refuting the claim at its own concrete case. -/
theorem filter_datum_not_exact_key :
    filter_datum ["name"] "***" "username=Bob" ';' ≠ "username=Bob" := by decide

/-- C1 (amended): key matching in `filter_datum` is substring matching: a
field name occurring immediately before `=` is matched even when it is
only a suffix of a longer key, its value is masked and the characters
before the occurrence are preserved; in particular
`filter_datum(["name"], "***", "username=Bob", ";") = "username=***"`. -/
theorem filter_datum_substring_key :
    filter_datum ["name"] "***" "username=Bob" ';' = "username=***" ∧
      filter_datum ["name"] "***" "surname=X;name=Y" ';' = "surname=***;name=***" :=
  ⟨by decide, by decide⟩

/-! ### Claim C2 -/

/-- C2 counterexample: with an empty fields collection `'|'.join(fields)`
is the empty string, so the pattern degenerates to `()=([^;]*)` whose
first group is the empty alternative; `filter_datum([], mask, M, sep)` is
therefore NOT the identity: `"a=b"` becomes `"a=***"`. -/
theorem filter_datum_empty_fields_not_id :
    filter_datum [] "***" "a=b" ';' ≠ "a=b" := by decide

theorem reSub_empty_alt_id (sep : Char) (red : List Char) :
    ∀ s : List Char, '=' ∉ s → reSub [[]] sep red s = s := by
  intro s
  induction s with
  | nil => intro _; rfl
  | cons c cs ih =>
    intro h
    have hc : c ≠ '=' := fun e => h (by simp [e])
    have hfa : findAlt [[]] (c :: cs) = none := by
      unfold findAlt
      rw [List.find?_eq_none]
      intro f hf
      have hf' : f = [] := by simpa using hf
      subst hf'
      simp only [probeAlt, List.nil_append, List.isPrefixOf, Bool.and_eq_true,
        beq_iff_eq, not_and]
      intro e
      exact absurd e.symm hc
    rw [reSub_cons_none _ _ _ hfa, ih fun hm => h (List.mem_cons_of_mem _ hm)]

/-- C2 (amended): with an empty fields collection the degenerate pattern
`()=([^sep]*)` rewrites every `=`-run, so `filter_datum` is the identity
transform exactly on messages that contain no `'='` character; for every
such message, mask and separator it returns the message unchanged. -/
theorem filter_datum_empty_fields_id (m red : String) (sep : Char)
    (h : '=' ∉ m.data) : filter_datum [] red m sep = m := by
  show (⟨reSub [[]] sep red.data m.data⟩ : String) = m
  rw [reSub_empty_alt_id sep red.data m.data h]

/-- Witness for C2 (amended) at a concrete `'='`-free message. -/
theorem filter_datum_empty_fields_id_witness :
    filter_datum [] "***" "hello world" ';' = "hello world" :=
  filter_datum_empty_fields_id "hello world" "***" ';' (by decide)

/-! ### Claim C5 -/

/-- C5: when a field occurs with an empty value (its `=` immediately
followed by the separator), the match still succeeds — the value group
`[^sep]*` matches the empty string — and the empty value is replaced by
the mask.  First conjunct: in general, whenever the scanner selects
alternative `f` at a position where the separator immediately follows
`f=`, the output continues with `f=` followed by the mask.  Second
conjunct: the claim's concrete case. -/
theorem filter_datum_empty_value (alts : List (List Char)) (sep : Char)
    (red f rest : List Char)
    (h : findAlt alts (f ++ '=' :: sep :: rest) = some f) :
    reSub alts sep red (f ++ '=' :: sep :: rest) =
      f ++ '=' :: (red ++ reSub alts sep red (sep :: rest)) ∧
    filter_datum ["email"] "XXX" "email=;user=a" ';' = "email=XXX;user=a" := by
  constructor
  · rw [reSub_eq_of_findAlt_some alts sep red h, drop_key, dropWhile_cons_sep]
  · decide

/-- Witness for C5 at the claim's concrete input. -/
theorem filter_datum_empty_value_witness :
    reSub (altsOf ["email"]) ';' "XXX".data
        ("email".data ++ '=' :: ';' :: "user=a".data) =
      "email".data ++ '=' :: ("XXX".data ++
        reSub (altsOf ["email"]) ';' "XXX".data (';' :: "user=a".data)) ∧
    filter_datum ["email"] "XXX" "email=;user=a" ';' = "email=XXX;user=a" :=
  filter_datum_empty_value (altsOf ["email"]) ';' "XXX".data "email".data
    "user=a".data (by decide)

/-! ### Claim C10 -/

/-- C10: when the matched field's value contains `'='`, the greedy value
group `[^sep]*` still runs to the next separator (or end of message), so
the entire run after the key's `=` is masked.  First conjunct: in general,
whenever the scanner selects alternative `f` and the text after `f=` is a
separator-free run `v` (which may contain `'='`) followed by the
separator, the whole of `v` is replaced by the mask.  Second conjunct: the
claim's concrete case. -/
theorem filter_datum_value_with_eq (alts : List (List Char)) (sep : Char)
    (red f v rest : List Char)
    (h : findAlt alts (f ++ '=' :: (v ++ sep :: rest)) = some f)
    (hv : sep ∉ v) :
    reSub alts sep red (f ++ '=' :: (v ++ sep :: rest)) =
      f ++ '=' :: (red ++ reSub alts sep red (sep :: rest)) ∧
    filter_datum ["password"] "***" "password=a=b;x=1" ';' = "password=***;x=1" := by
  constructor
  · rw [reSub_eq_of_findAlt_some alts sep red h, drop_key,
      dropWhile_all (fun c hc => by simp; exact fun e => hv (e ▸ hc)) (sep :: rest),
      dropWhile_cons_sep]
  · decide

/-- Witness for C10 at the claim's concrete input, where the value `a=b`
contains an embedded `'='`. -/
theorem filter_datum_value_with_eq_witness :
    reSub (altsOf ["password"]) ';' "***".data
        ("password".data ++ '=' :: ("a=b".data ++ ';' :: "x=1".data)) =
      "password".data ++ '=' :: ("***".data ++
        reSub (altsOf ["password"]) ';' "***".data (';' :: "x=1".data)) ∧
    filter_datum ["password"] "***" "password=a=b;x=1" ';' = "password=***;x=1" :=
  filter_datum_value_with_eq (altsOf ["password"]) ';' "***".data
    "password".data "a=b".data "x=1".data (by decide) (by decide)

/-! ### Claim C8 -/

/-- C8 counterexample: `main` builds each row's raw message with
`"; ".join(...)` — the separator followed by a space — not with the
one-character SEPARATOR `";"` that `RedactingFormatter` passes to
`filter_datum`; the two joins differ already on a two-column row. -/
theorem buildMessage_not_sep_join :
    buildMessage ["name", "email"] ["Bob", "b@x.com"] ≠
      String.intercalate (String.singleton SEPARATOR)
        ["name=Bob", "email=b@x.com"] := by decide

/-- C8 (amended): `main` joins the row's `column=value` pairs with the
two-character string `"; "` (the SEPARATOR `";"` followed by a space),
while `RedactingFormatter` passes the one-character `';'` to
`filter_datum`; since values still terminate at `';'`, redaction of the
built message masks the listed fields. -/
theorem buildMessage_semicolon_space :
    buildMessage ["name", "email"] ["Bob", "b@x.com"] = "name=Bob; email=b@x.com" ∧
      filter_datum ["email"] "***"
          (buildMessage ["name", "email"] ["Bob", "b@x.com"]) SEPARATOR =
        "name=Bob; email=***" :=
  ⟨by decide, by decide⟩

/-! ### Claim C3 -/

/-- If no alternative matches at any position inside `u` (probing the whole
remaining text, so matches straddling the boundary are also ruled out),
the scanner copies `u` verbatim and continues on `t`. -/
theorem reSub_append (alts : List (List Char)) (sep : Char) (red : List Char) :
    ∀ u t : List Char,
      (∀ i < u.length, findAlt alts (u.drop i ++ t) = none) →
      reSub alts sep red (u ++ t) = u ++ reSub alts sep red t := by
  intro u
  induction u with
  | nil => intro t _; rfl
  | cons c u' ih =>
    intro t h
    have h0 : findAlt alts (c :: (u' ++ t)) = none := by
      have := h 0 (by simp)
      simpa using this
    rw [List.cons_append, reSub_cons_none _ _ _ h0,
      ih t fun i hi => by
        have := h (i + 1) (by simp only [List.length_cons]; omega)
        simpa using this,
      List.cons_append]

/-- C3 counterexample: the guarantee "all other content of the rendered
line is unchanged" fails.  With fields `["name"]` and message
`"username=Bob"`, the rendered line contains no `name=value` token (its
only token has key `"username"`, not in the field set), yet `format`
rewrites it to `"username=***"` because the substring `"name="` matches
inside the longer key. -/
theorem format_changes_nontoken_content :
    RedactingFormatter.format ["name"]
        ⟨"user_data", "INFO", "ts", "username=Bob"⟩ =
      "[HOLBERTON] user_data INFO ts             : username=***" ∧
    RedactingFormatter.format ["name"]
        ⟨"user_data", "INFO", "ts", "username=Bob"⟩ ≠
      "[HOLBERTON] user_data INFO ts             : username=Bob" :=
  ⟨by decide, by decide⟩

/-- C3 (amended): `format` first renders the base template (name, level,
timestamp, message) and then applies `filter_datum` — with the configured
fields, REDACTION and SEPARATOR — to the entire rendered line; whenever no
field alternative matches at any position inside the rendered head (the
template part before the message), the head is emitted unchanged and the
message part is redacted exactly as `filter_datum` redacts it.  Masking is
by substring key matching, so a key that merely contains a field name is
also rewritten (see the counterexample). -/
theorem format_renders_then_redacts (fields : List String) (r : LogRecord)
    (h : ∀ i < (renderHead r).data.length,
      findAlt (altsOf fields) ((renderHead r).data.drop i ++ r.message.data) = none) :
    RedactingFormatter.format fields r =
      renderHead r ++ filter_datum fields REDACTION r.message SEPARATOR := by
  show (⟨reSub (altsOf fields) SEPARATOR REDACTION.data (render r).data⟩ : String) =
    renderHead r ++ ⟨reSub (altsOf fields) SEPARATOR REDACTION.data r.message.data⟩
  have hd : (render r).data = (renderHead r).data ++ r.message.data := by
    unfold render
    exact String.data_append _ _
  rw [hd, reSub_append (altsOf fields) SEPARATOR REDACTION.data
    (renderHead r).data r.message.data h]
  cases hh : renderHead r with
  | mk l => rfl

/-- Witness for C3 (amended): a concrete record whose rendered head
contains no field occurrence. -/
theorem format_renders_then_redacts_witness :
    RedactingFormatter.format ["name"] ⟨"app", "INFO", "ts", "name=Bob"⟩ =
      renderHead ⟨"app", "INFO", "ts", "name=Bob"⟩ ++
        filter_datum ["name"] REDACTION "name=Bob" SEPARATOR :=
  format_renders_then_redacts ["name"] ⟨"app", "INFO", "ts", "name=Bob"⟩
    (by decide)

/-! ### Claim C9 -/

/-- C9 (code bug evidence): `main` closes the cursor and the connection
only on the normal path after the row loop — there is no `try`/`finally`
or `with` block — so when fetching a row raises an error both are left
open as the error propagates, while on a normal run both are closed. -/
theorem main_leaks_on_error :
    (main ["name"] [Except.ok ["Bob"],
        Except.error DbError.connectionLost]).cursorClosed = false ∧
    (main ["name"] [Except.ok ["Bob"],
        Except.error DbError.connectionLost]).dbClosed = false ∧
    (main ["name"] [Except.ok ["Bob"]]).cursorClosed = true ∧
    (main ["name"] [Except.ok ["Bob"]]).dbClosed = true :=
  ⟨rfl, rfl, rfl, rfl⟩

/-! ### Claim C4 -/

/-- C4 counterexample: idempotence fails when the mask contains the
separator, even though the message is well formed and no field value in
it contains the separator (`M = "x=0"`).  With mask `"1;x=2"`, one
application gives `"x=1;x=2"`; the second application re-matches both
`x=` tokens of that output and yields `"x=1;x=2;x=1;x=2"`. -/
theorem filter_datum_not_idempotent :
    filter_datum ["x"] "1;x=2" (filter_datum ["x"] "1;x=2" "x=0" ';') ';' ≠
      filter_datum ["x"] "1;x=2" "x=0" ';' := by decide

/-- C4 (amended): for all messages M and field sets F, `filter_datum` is
idempotent provided the mask does not contain the separator, no field
name contains `'='` or the separator, and the separator is not `'='`
(the claim's own condition on the field values of M is not needed).
Masked values are re-matched as whole `[^sep]*` runs and replaced by the
identical mask, and probing a rewritten position finds exactly the
matches of the first pass. -/
theorem filter_datum_idempotent (fields : List String) (red m : String)
    (sep : Char) (h1 : ∀ f ∈ fields, '=' ∉ f.data ∧ sep ∉ f.data)
    (h2 : sep ∉ red.data) (h3 : sep ≠ '=') :
    filter_datum fields red (filter_datum fields red m sep) sep =
      filter_datum fields red m sep := by
  have key := (reSub_idem_aux (altsOf fields) sep red.data
    (alts_clean fields sep h1) h2 h3 m.data.length m.data (Nat.le_refl _)).2
  show (⟨reSub (altsOf fields) sep red.data
      (⟨reSub (altsOf fields) sep red.data m.data⟩ : String).data⟩ : String) =
    (⟨reSub (altsOf fields) sep red.data m.data⟩ : String)
  exact congrArg String.mk key

/-- Witness for C4 (amended) on a concrete message, field set and the
reference mask `"***"`. -/
theorem filter_datum_idempotent_witness :
    filter_datum ["email", "name"] "***"
        (filter_datum ["email", "name"] "***" "email=bob@x;name=t;z=3" ';') ';' =
      filter_datum ["email", "name"] "***" "email=bob@x;name=t;z=3" ';' :=
  filter_datum_idempotent ["email", "name"] "***" "email=bob@x;name=t;z=3" ';'
    (by decide) (by decide) (by decide)

/-! ### Claim C6 -/

/-- C6 counterexample: with a mask containing the separator, redaction
adds tokens.  The input `"a=0"` is well formed (its only value, `"0"`,
does not contain the separator), its key sequence is `["a"]`, but the
output `"a=1;b=2"` has key sequence `["a", "b"]`. -/
theorem filter_datum_keys_not_preserved :
    keys ';' (filter_datum ["a"] "1;b=2" "a=0" ';').data ≠
      keys ';' "a=0".data := by decide

/-- C6 (amended): the sequence of keys in the output of `filter_datum`
(one per separator-delimited token, each the token text before its first
`'='`) equals the sequence of keys of the input, for any message —
provided the mask does not contain the separator, no field name contains
`'='` or the separator, and the separator is not `'='`.  Redaction then
never adds, removes, or reorders tokens and preserves each key name
verbatim (well-formedness of the message is not even needed). -/
theorem filter_datum_preserves_keys (fields : List String) (red m : String)
    (sep : Char) (h1 : ∀ f ∈ fields, '=' ∉ f.data ∧ sep ∉ f.data)
    (h2 : sep ∉ red.data) (h3 : sep ≠ '=') :
    keys sep (filter_datum fields red m sep).data = keys sep m.data := by
  have key := keys_reSub (altsOf fields) sep red.data
    (alts_clean fields sep h1) h2 h3 m.data.length m.data (Nat.le_refl _)
  exact key

/-- Witness for C6 (amended) on a concrete well-formed message. -/
theorem filter_datum_preserves_keys_witness :
    keys ';' (filter_datum ["password", "ssn"] "***"
        "name=Bob;password=hunter2;ssn=123-45-6789" ';').data =
      keys ';' "name=Bob;password=hunter2;ssn=123-45-6789".data :=
  filter_datum_preserves_keys ["password", "ssn"] "***"
    "name=Bob;password=hunter2;ssn=123-45-6789" ';'
    (by decide) (by decide) (by decide)

end FilteredLogger
